import Mathlib

/-!
# Verification of the gold/silver NPR price pipeline

Shallow embedding of the price-derivation and caching pipeline of the
gold-silver-npr-price repository.  JavaScript numbers are modelled as exact
rationals (`ℚ`); `Math.round` is modelled as round-half-up toward +infinity
(`⌊x + 1/2⌋`), which is its behaviour on all ordinary values.  A `parseFloat`
result that is `NaN` is modelled as `Option.none`; all other `isNaN` guards in
the code can only fire on values derived from such a parse, so they are
represented by the corresponding `Option` plumbing.
-/

namespace GoldSilverNpr

/-- JavaScript `Math.round`: round half up (toward +infinity). -/
def jround (x : ℚ) : ℤ := ⌊x + 1/2⌋

/-- `const OZ_TO_GM = 31.1035` — troy ounce to grams. -/
def OZ_TO_GM : ℚ := 311035 / 10000

/-- `const GM_TO_TOLA = 11.664` — grams per tola. -/
def GM_TO_TOLA : ℚ := 11664 / 1000

/-- `const CACHE_DURATION = 30 * 60 * 1000` — 30 minutes in milliseconds. -/
def CACHE_DURATION : ℤ := 30 * 60 * 1000

/-- Metal symbol: the code branches on the string `'XAU'` (gold) with `'XAG'`
(silver) as the other case. -/
inductive Metal where
  | XAU
  | XAG
deriving DecidableEq, Repr

/-- `calculatePricePerGram` from the main app module: price per gram in NPR
with the metal-specific margin.
```js
const pricePerGmUSD = maxPriceUSD / OZ_TO_GM;
const pricePerGmNPR = pricePerGmUSD * usdToNprRate;
if (metal === 'XAU') {
    return Math.round(pricePerGmNPR * 1.10 + (5000 / GM_TO_TOLA));
} else {
    return Math.round(pricePerGmNPR * 1.16 + (50 / GM_TO_TOLA));
}
```
-/
def calculatePricePerGram (maxPriceUSD usdToNprRate : ℚ) (metal : Metal) : ℤ :=
  let pricePerGmUSD := maxPriceUSD / OZ_TO_GM
  let pricePerGmNPR := pricePerGmUSD * usdToNprRate
  match metal with
  | .XAU => jround (pricePerGmNPR * (110/100) + (5000 / GM_TO_TOLA))
  | .XAG => jround (pricePerGmNPR * (116/100) + (50 / GM_TO_TOLA))

/-- `calculatePricePerTola`: `Math.round(calculatePricePerGram(...) * GM_TO_TOLA)` —
the tola price is computed from the already-rounded integer gram price. -/
def calculatePricePerTola (maxPriceUSD usdToNprRate : ℚ) (metal : Metal) : ℤ :=
  jround ((calculatePricePerGram maxPriceUSD usdToNprRate metal : ℚ) * GM_TO_TOLA)

/-- Gram price as the specification writes it:
`round((s / 31.1035) * r * 1.10 + 5000/11.664)` for gold and
`round((s / 31.1035) * r * 1.16 + 50/11.664)` for silver. -/
def specPricePerGram (s r : ℚ) (m : Metal) : ℤ :=
  match m with
  | .XAU => jround ((s / OZ_TO_GM) * r * (110/100) + 5000 / GM_TO_TOLA)
  | .XAG => jround ((s / OZ_TO_GM) * r * (116/100) + 50 / GM_TO_TOLA)

/-- Tola price as the specification writes it: `round(price_per_gram_npr * 11.664)`
applied to the already-rounded gram price. -/
def specPricePerTola (s r : ℚ) (m : Metal) : ℤ :=
  jround ((specPricePerGram s r m : ℚ) * GM_TO_TOLA)

/-- C1: for every positive spot price and positive exchange rate and either metal,
the converter's gram price is exactly the spec formula
(`round((s/31.1035)*r*margin + surcharge/11.664)`) and the tola price is
`round(price_per_gram_npr * 11.664)` computed from the already-rounded gram
price, in that order. -/
theorem converter_matches_spec (s r : ℚ) (m : Metal) (_hs : 0 < s) (_hr : 0 < r) :
    calculatePricePerGram s r m = specPricePerGram s r m ∧
    calculatePricePerTola s r m =
      jround ((calculatePricePerGram s r m : ℚ) * GM_TO_TOLA) := by
  cases m <;> exact ⟨rfl, rfl⟩

/-- Witness for C1 at spot 4994.50 USD/oz and rate 144.5737 NPR/USD (gold). -/
theorem converter_matches_spec_witness :
    (0 : ℚ) < 499450/100 ∧ (0 : ℚ) < 1445737/10000 ∧
    (calculatePricePerGram (499450/100) (1445737/10000) .XAU =
        specPricePerGram (499450/100) (1445737/10000) .XAU ∧
      calculatePricePerTola (499450/100) (1445737/10000) .XAU =
        jround ((calculatePricePerGram (499450/100) (1445737/10000) .XAU : ℚ) *
          GM_TO_TOLA)) :=
  ⟨by norm_num, by norm_num,
    converter_matches_spec (499450/100) (1445737/10000) .XAU (by norm_num) (by norm_num)⟩

/-! ## Series Reconciler (`fetchMetalData` processing pipeline)

The raw history response is a list of `{ day, max_price }` records.  `day` is a
`"YYYY-MM-DD ..."` string whose date part orders the points; we model it by a
natural-number key order-isomorphic to the parsed `Date`.  `max_price` is a
string put through `parseFloat`; `none` models a `NaN` parse result (the only
source of `NaN` in the pipeline, which the `isNaN` filter then discards). -/

/-- One raw upstream record `{ day, max_price }`. -/
structure RawItem where
  day : ℕ
  max_price : Option ℚ
deriving DecidableEq, Repr

/-- One processed point `{ day, price_usd, price_per_tola, price_per_gram }`. -/
structure PricePoint where
  day : ℕ
  price_usd : ℚ
  price_per_tola : ℤ
  price_per_gram : ℤ
deriving DecidableEq, Repr

/-- A processed point together with its `percentChange` field. -/
structure ChartPoint where
  day : ℕ
  price_usd : ℚ
  price_per_tola : ℤ
  price_per_gram : ℤ
  percentChange : ℚ
deriving DecidableEq, Repr

/-- The `.map` stage of the pipeline:
```js
const maxPrice = parseFloat(item.max_price);
return { day: ..., price_usd: maxPrice, price_per_tola: ..., price_per_gram: ... };
```
combined with the fact that a `NaN` `maxPrice` (modelled `none`) makes every
field of the record `NaN`, so the subsequent `isNaN` filter drops it. -/
def toPoint (rate : ℚ) (metal : Metal) (item : RawItem) : Option PricePoint :=
  item.max_price.map fun p =>
    { day := item.day
      price_usd := p
      price_per_tola := calculatePricePerTola p rate metal
      price_per_gram := calculatePricePerGram p rate metal }

/-- The `.filter` stage: keep points whose three numeric fields are positive
(the `!isNaN` conjuncts are the `none` case already removed by `toPoint`). -/
def keepPoint (pt : PricePoint) : Bool :=
  decide (0 < pt.price_usd) && decide (0 < pt.price_per_tola) &&
    decide (0 < pt.price_per_gram)

/-- Insert a point into a day-sorted list, after all points with a `≤` day —
the behaviour of a stable sort on the comparator
`(a, b) => new Date(a.day) - new Date(b.day)`. -/
def insertByDay (p : PricePoint) : List PricePoint → List PricePoint
  | [] => [p]
  | q :: rest => if q.day ≤ p.day then q :: insertByDay p rest else p :: q :: rest

/-- The `.sort((a, b) => new Date(a.day) - new Date(b.day))` stage, modelled as
a stable insertion sort on the day key (JavaScript `Array.prototype.sort` is
stable). -/
def sortByDay : List PricePoint → List PricePoint
  | [] => []
  | p :: rest => insertByDay p (sortByDay rest)

/-- `processedData`: map, filter, sort by date ascending. -/
def processedData (rate : ℚ) (metal : Metal) (items : List RawItem) : List PricePoint :=
  sortByDay ((items.filterMap (toPoint rate metal)).filter keepPoint)

/-- Day-over-day percent change of the tola price:
```js
if (prevPrice > 0 && !isNaN(prevPrice) && !isNaN(currentPrice)) {
    percentChange = ((currentPrice - prevPrice) / prevPrice) * 100;
}
```
(the prices are integers produced by the pipeline, so the `isNaN` guards are
vacuous in the model). -/
def percentChangeFrom (prev cur : PricePoint) : ℚ :=
  if 0 < prev.price_per_tola then
    (((cur.price_per_tola - prev.price_per_tola : ℤ) : ℚ) / (prev.price_per_tola : ℚ)) * 100
  else 0

/-- Attach a percent-change value to a point. -/
def chartOf (p : PricePoint) (pc : ℚ) : ChartPoint :=
  { day := p.day
    price_usd := p.price_usd
    price_per_tola := p.price_per_tola
    price_per_gram := p.price_per_gram
    percentChange := pc }

/-- The `index > 0` arm of the percent-change map: each point is paired with
its predecessor in the sorted list (`processedData[index - 1]`). -/
def withPercentChangeAux (prev : PricePoint) : List PricePoint → List ChartPoint
  | [] => []
  | p :: rest => chartOf p (percentChangeFrom prev p) :: withPercentChangeAux p rest

/-- The percent-change map over the sorted list: the first point (`index === 0`)
gets `percentChange = 0`, every later point is compared with its predecessor. -/
def withPercentChange : List PricePoint → List ChartPoint
  | [] => []
  | p :: rest => chartOf p 0 :: withPercentChangeAux p rest

/-- `dataWithPercentChange`: the full reconciled series produced by
`fetchMetalData` before the emptiness check. -/
def dataWithPercentChange (rate : ℚ) (metal : Metal) (items : List RawItem) :
    List ChartPoint :=
  withPercentChange (processedData rate metal items)

/-- Dates strictly ascending with no duplicates. -/
def strictlyDated (l : List ChartPoint) : Prop :=
  l.Pairwise (fun a b => a.day < b.day)

/-- Dates in non-decreasing order. -/
def sortedDated (l : List ChartPoint) : Prop :=
  l.Pairwise (fun a b => a.day ≤ b.day)

instance (l : List ChartPoint) : Decidable (strictlyDated l) :=
  inferInstanceAs (Decidable (l.Pairwise _))

instance (l : List ChartPoint) : Decidable (sortedDated l) :=
  inferInstanceAs (Decidable (l.Pairwise _))

theorem insertByDay_perm (p : PricePoint) (l : List PricePoint) :
    List.Perm (insertByDay p l) (p :: l) := by
  induction l with
  | nil => exact List.Perm.refl _
  | cons q rest ih =>
    simp only [insertByDay]
    split
    · exact (ih.cons q).trans (List.Perm.swap p q rest)
    · exact List.Perm.refl _

theorem insertByDay_sorted (p : PricePoint) {l : List PricePoint}
    (h : l.Pairwise (fun a b => a.day ≤ b.day)) :
    (insertByDay p l).Pairwise (fun a b => a.day ≤ b.day) := by
  induction l with
  | nil => simp [insertByDay]
  | cons q rest ih =>
    rw [List.pairwise_cons] at h
    obtain ⟨hq, hrest⟩ := h
    by_cases hle : q.day ≤ p.day
    · simp only [insertByDay, if_pos hle]
      rw [List.pairwise_cons]
      refine ⟨fun a ha => ?_, ih hrest⟩
      rcases List.mem_cons.mp ((insertByDay_perm p rest).mem_iff.mp ha) with rfl | hmem
      · exact hle
      · exact hq a hmem
    · push_neg at hle
      simp only [insertByDay, if_neg (not_le.mpr hle)]
      rw [List.pairwise_cons]
      refine ⟨fun a ha => ?_, List.Pairwise.cons hq hrest⟩
      rcases List.mem_cons.mp ha with rfl | hmem
      · exact le_of_lt hle
      · exact le_trans (le_of_lt hle) (hq a hmem)

theorem sortByDay_perm (l : List PricePoint) : List.Perm (sortByDay l) l := by
  induction l with
  | nil => exact List.Perm.refl _
  | cons p rest ih => exact (insertByDay_perm p _).trans (ih.cons p)

theorem sortByDay_sorted (l : List PricePoint) :
    (sortByDay l).Pairwise (fun a b => a.day ≤ b.day) := by
  induction l with
  | nil => exact List.Pairwise.nil
  | cons p rest ih => exact insertByDay_sorted p ih

theorem withPercentChangeAux_map_day (prev : PricePoint) (l : List PricePoint) :
    (withPercentChangeAux prev l).map ChartPoint.day = l.map PricePoint.day := by
  induction l generalizing prev with
  | nil => rfl
  | cons p rest ih => simp [withPercentChangeAux, chartOf, ih]

theorem withPercentChange_map_day (l : List PricePoint) :
    (withPercentChange l).map ChartPoint.day = l.map PricePoint.day := by
  cases l with
  | nil => rfl
  | cons p rest => simp [withPercentChange, chartOf, withPercentChangeAux_map_day]

theorem filterMap_toPoint_days_sublist (rate : ℚ) (metal : Metal)
    (items : List RawItem) :
    ((items.filterMap (toPoint rate metal)).map PricePoint.day).Sublist
      (items.map RawItem.day) := by
  induction items with
  | nil => simp
  | cons item rest ih =>
    cases h : item.max_price with
    | none =>
      simp only [List.filterMap_cons, toPoint, h, Option.map_none', List.map_cons]
      exact ih.cons _
    | some p =>
      simp only [List.filterMap_cons, toPoint, h, Option.map_some', List.map_cons]
      exact ih.cons₂ _

theorem processedData_days_sublist (rate : ℚ) (metal : Metal)
    (items : List RawItem) :
    (((items.filterMap (toPoint rate metal)).filter keepPoint).map
        PricePoint.day).Sublist (items.map RawItem.day) :=
  ((List.filter_sublist _).map _).trans (filterMap_toPoint_days_sublist rate metal items)

theorem processedData_days_nodup (rate : ℚ) (metal : Metal)
    (items : List RawItem) (hnd : (items.map RawItem.day).Nodup) :
    ((processedData rate metal items).map PricePoint.day).Nodup := by
  have hperm : List.Perm ((processedData rate metal items).map PricePoint.day)
      (((items.filterMap (toPoint rate metal)).filter keepPoint).map PricePoint.day) :=
    (sortByDay_perm _).map _
  exact hperm.nodup_iff.mpr (hnd.sublist (processedData_days_sublist rate metal items))

theorem processedData_strict (rate : ℚ) (metal : Metal) (items : List RawItem)
    (hnd : (items.map RawItem.day).Nodup) :
    (processedData rate metal items).Pairwise (fun a b => a.day < b.day) := by
  have hle := sortByDay_sorted ((items.filterMap (toPoint rate metal)).filter keepPoint)
  have hne : (processedData rate metal items).Pairwise (fun a b => a.day ≠ b.day) := by
    have := processedData_days_nodup rate metal items hnd
    rwa [List.Nodup, List.pairwise_map] at this
  exact (hle.and hne).imp fun h => lt_of_le_of_ne h.1 h.2

/-- Transfer a day-keyed pairwise relation across the percent-change map. -/
theorem withPercentChange_pairwise_day {R : ℕ → ℕ → Prop} (l : List PricePoint)
    (h : l.Pairwise fun a b => R a.day b.day) :
    (withPercentChange l).Pairwise fun a b => R a.day b.day := by
  have h1 : (l.map PricePoint.day).Pairwise R := List.pairwise_map.mpr h
  have h2 : ((withPercentChange l).map ChartPoint.day).Pairwise R := by
    rw [withPercentChange_map_day]; exact h1
  exact List.pairwise_map.mp h2

/-- C2 amended: every reconciled series has non-decreasing dates; whenever the
raw batch contains no duplicate date keys, the dates are strictly increasing
with no duplicates; and the first point's percent change is exactly 0. -/
theorem reconciled_series_sorted (rate : ℚ) (metal : Metal) (items : List RawItem) :
    sortedDated (dataWithPercentChange rate metal items) ∧
    ((items.map RawItem.day).Nodup →
      strictlyDated (dataWithPercentChange rate metal items)) ∧
    (∀ p ps, dataWithPercentChange rate metal items = p :: ps →
      p.percentChange = 0) := by
  refine ⟨?_, fun hnd => ?_, fun p ps h => ?_⟩
  · exact withPercentChange_pairwise_day _ (sortByDay_sorted _)
  · exact withPercentChange_pairwise_day _ (processedData_strict rate metal items hnd)
  · unfold dataWithPercentChange at h
    cases hp : processedData rate metal items with
    | nil => rw [hp] at h; exact absurd h (by simp [withPercentChange])
    | cons q rest =>
      rw [hp] at h
      simp only [withPercentChange] at h
      have : p = chartOf q 0 := (List.cons_eq_cons.mp h).1.symm
      rw [this]
      rfl

/-- A rational at least one half rounds to a positive integer. -/
theorem jround_pos {x : ℚ} (h : 1/2 ≤ x) : 0 < jround x := by
  have h1 : (1 : ℚ) ≤ x + 1/2 := by linarith
  have h2 : (1 : ℤ) ≤ ⌊x + 1/2⌋ := Int.le_floor.mpr (by exact_mod_cast h1)
  unfold jround
  omega

/-- The margined gram price of a positive quote at a positive rate is positive. -/
theorem calculatePricePerGram_pos {p rate : ℚ} (metal : Metal)
    (hp : 0 < p) (hr : 0 < rate) : 0 < calculatePricePerGram p rate metal := by
  have hoz : (0:ℚ) < OZ_TO_GM := by norm_num [OZ_TO_GM]
  have hg : 0 < p / OZ_TO_GM * rate := mul_pos (div_pos hp hoz) hr
  cases metal
  · show 0 < jround (p / OZ_TO_GM * rate * (110/100) + 5000 / GM_TO_TOLA)
    apply jround_pos
    have hc : (1/2 : ℚ) ≤ 5000 / GM_TO_TOLA := by norm_num [GM_TO_TOLA]
    nlinarith
  · show 0 < jround (p / OZ_TO_GM * rate * (116/100) + 50 / GM_TO_TOLA)
    apply jround_pos
    have hc : (1/2 : ℚ) ≤ 50 / GM_TO_TOLA := by norm_num [GM_TO_TOLA]
    nlinarith

/-- The tola price of a positive quote at a positive rate is positive. -/
theorem calculatePricePerTola_pos {p rate : ℚ} (metal : Metal)
    (hp : 0 < p) (hr : 0 < rate) : 0 < calculatePricePerTola p rate metal := by
  have hg := calculatePricePerGram_pos metal hp hr
  have hg1 : (1 : ℚ) ≤ (calculatePricePerGram p rate metal : ℚ) := by
    exact_mod_cast hg
  unfold calculatePricePerTola
  apply jround_pos
  have ht : (1 : ℚ) ≤ GM_TO_TOLA := by norm_num [GM_TO_TOLA]
  nlinarith

/-- A mapped point born from a positive quote at a positive rate passes the
validity filter. -/
theorem keepPoint_toPoint (d : ℕ) {p rate : ℚ} (metal : Metal)
    (hp : 0 < p) (hr : 0 < rate) :
    keepPoint
      { day := d, price_usd := p,
        price_per_tola := calculatePricePerTola p rate metal,
        price_per_gram := calculatePricePerGram p rate metal } = true := by
  simp only [keepPoint, Bool.and_eq_true, decide_eq_true_eq]
  exact ⟨⟨hp, calculatePricePerTola_pos metal hp hr⟩,
    calculatePricePerGram_pos metal hp hr⟩

/-- C2 witness: a concrete batch with distinct dates yields a strictly dated
series. -/
theorem reconciled_series_sorted_witness :
    strictlyDated (dataWithPercentChange 100 .XAU
      [⟨1, some 2000⟩, ⟨2, some 2100⟩]) :=
  (reconciled_series_sorted 100 .XAU [⟨1, some 2000⟩, ⟨2, some 2100⟩]).2.1
    (by decide)

/-- C2 counterexample: the reconciler never removes duplicate dates.  A raw
batch whose two points carry the same date key is reconciled into a nonempty
(successful) series whose dates are not strictly increasing. -/
theorem reconciled_series_duplicate_dates :
    ¬ strictlyDated (dataWithPercentChange 100 .XAU
        [⟨1, some 2000⟩, ⟨1, some 2100⟩]) ∧
    dataWithPercentChange 100 .XAU [⟨1, some 2000⟩, ⟨1, some 2100⟩] ≠ [] := by
  have hk1 := @keepPoint_toPoint 1 2000 100 Metal.XAU (by norm_num) (by norm_num)
  have hk2 := @keepPoint_toPoint 1 2100 100 Metal.XAU (by norm_num) (by norm_num)
  have hdays : (dataWithPercentChange 100 .XAU
      [⟨1, some 2000⟩, ⟨1, some 2100⟩]).map ChartPoint.day = [1, 1] := by
    rw [dataWithPercentChange, withPercentChange_map_day]
    simp [processedData, toPoint, hk1, hk2, sortByDay, insertByDay]
  constructor
  · intro hstrict
    have : ([1, 1] : List ℕ).Pairwise (· < ·) := by
      rw [← hdays]; exact List.pairwise_map.mpr hstrict
    simp at this
  · intro hnil
    rw [hnil] at hdays
    simp at hdays

/-! ## Exchange Rate Cache -/

/-- A persisted exchange-rate entry, as written by `setCachedExchangeRate`:
`{ rate, timeNextUpdateUnix, timestamp: Date.now() }`.  The `timestamp` field
is stored but never consulted by the expiry check. -/
structure CachedRate where
  rate : ℚ
  timeNextUpdateUnix : ℤ
  timestamp : ℤ
deriving DecidableEq, Repr

/-- `getCachedExchangeRate`: destructures the stored `{rate, timeNextUpdateUnix}`
and returns it when `now < timeNextUpdateUnix`
(`now = Math.floor(Date.now() / 1000)`), otherwise `null`. -/
def getCachedExchangeRate (store : Option CachedRate) (nowSec : ℤ) :
    Option (ℚ × ℤ) :=
  match store with
  | some c =>
    if nowSec < c.timeNextUpdateUnix then some (c.rate, c.timeNextUpdateUnix)
    else none
  | none => none

/-- `setCachedExchangeRate(rate, timeNextUpdateUnix)` at clock reading `nowMs`. -/
def setCachedExchangeRate (rate : ℚ) (timeNextUpdateUnix nowMs : ℤ) : CachedRate :=
  { rate := rate, timeNextUpdateUnix := timeNextUpdateUnix, timestamp := nowMs }

/-- The rate-resolution step of `fetchMetalData`: use the cached rate when the
lookup succeeds, otherwise take the provider's fresh `(rate,
time_next_update_unix)` response and store it.  Returns the resolved rate pair,
the updated store, and whether a network fetch occurred. -/
def resolveExchangeRate (store : Option CachedRate) (nowSec nowMs : ℤ)
    (fresh : ℚ × ℤ) : (ℚ × ℤ) × Option CachedRate × Bool :=
  match getCachedExchangeRate store nowSec with
  | some rt => (rt, store, false)
  | none => (fresh, some (setCachedExchangeRate fresh.1 fresh.2 nowMs), true)

/-- C3: the cached exchange rate is returned iff `now` is strictly before the
provider-supplied `time_next_update_unix`; otherwise a fresh rate is fetched,
stored together with the provider's own `valid_until` (never a locally computed
expiry), and returned.  The cache is never reused at or past `valid_until`. -/
theorem rate_cache_expiry (c : CachedRate) (nowSec nowMs : ℤ) (fresh : ℚ × ℤ) :
    (getCachedExchangeRate (some c) nowSec =
        some (c.rate, c.timeNextUpdateUnix) ↔ nowSec < c.timeNextUpdateUnix) ∧
    (nowSec < c.timeNextUpdateUnix →
      resolveExchangeRate (some c) nowSec nowMs fresh =
        ((c.rate, c.timeNextUpdateUnix), some c, false)) ∧
    (c.timeNextUpdateUnix ≤ nowSec →
      resolveExchangeRate (some c) nowSec nowMs fresh =
        (fresh, some (setCachedExchangeRate fresh.1 fresh.2 nowMs), true)) ∧
    resolveExchangeRate none nowSec nowMs fresh =
      (fresh, some (setCachedExchangeRate fresh.1 fresh.2 nowMs), true) ∧
    (setCachedExchangeRate fresh.1 fresh.2 nowMs).timeNextUpdateUnix = fresh.2 := by
  refine ⟨⟨fun h => ?_, fun h => ?_⟩, fun h => ?_, fun h => ?_, ?_, rfl⟩
  · by_contra hn
    simp [getCachedExchangeRate, if_neg hn] at h
  · simp [getCachedExchangeRate, if_pos h]
  · simp [resolveExchangeRate, getCachedExchangeRate, if_pos h]
  · have hn : ¬ nowSec < c.timeNextUpdateUnix := not_lt.mpr h
    simp [resolveExchangeRate, getCachedExchangeRate, if_neg hn]
  · simp [resolveExchangeRate, getCachedExchangeRate]

/-- C3 witness at a concrete still-valid cache entry. -/
theorem rate_cache_expiry_witness :
    resolveExchangeRate (some ⟨130, 100, 0⟩) 50 1000 (131, 200) =
      ((130, 100), some ⟨130, 100, 0⟩, false) :=
  (rate_cache_expiry ⟨130, 100, 0⟩ 50 1000 (131, 200)).2.1 (by norm_num)

/-! ## Price History Cache -/

/-- The series payload stored by `setCachedData`:
`{ chartData, usdToNpr, lastUpdated }`. -/
structure SeriesPayload where
  chartData : List ChartPoint
  usdToNpr : ℚ
  lastUpdated : ℤ
deriving DecidableEq, Repr

/-- A persisted series cache entry: the payload plus its write timestamp
(`{ data, timestamp: Date.now() }`). -/
structure StoredSeries where
  data : SeriesPayload
  timestamp : ℤ
deriving DecidableEq, Repr

/-- `getCachedData(metal)`: return the payload when the entry is younger than
`CACHE_DURATION` (`now - timestamp < CACHE_DURATION`), otherwise `null`. -/
def getCachedData (store : Option StoredSeries) (nowMs : ℤ) :
    Option SeriesPayload :=
  match store with
  | some s => if nowMs - s.timestamp < CACHE_DURATION then some s.data else none
  | none => none

/-- The `hasValidData` validation applied to a cache hit in `fetchMetalData`:
every cached point has its price fields defined, non-`NaN` and positive (in the
typed model definedness and the `NaN` checks are vacuous; positivity remains). -/
def hasValidData (l : List ChartPoint) : Bool :=
  l.all fun item => decide (0 < item.price_per_gram)

/-- Which path `fetchMetalData(metal, forceRefresh)` takes for its history
data. -/
inductive FetchPath where
  | servedFromCache (d : SeriesPayload)
  | fetchFresh
deriving DecidableEq, Repr

/-- The cache consultation at the top of `fetchMetalData(metal, forceRefresh)`:
when `forceRefresh` is false and a fresh-enough entry passes validation it is
served without any network fetch; otherwise (including always when
`forceRefresh` is true) the function proceeds to fetch.  (The invalid-hit
branch additionally deletes the corrupt entry before falling through.) -/
def cachePathDecision (forceRefresh : Bool) (store : Option StoredSeries)
    (nowMs : ℤ) : FetchPath :=
  if forceRefresh then .fetchFresh
  else
    match getCachedData store nowMs with
    | some d => if hasValidData d.chartData then .servedFromCache d else .fetchFresh
    | none => .fetchFresh

theorem withPercentChangeAux_map_gram (prev : PricePoint) (l : List PricePoint) :
    (withPercentChangeAux prev l).map ChartPoint.price_per_gram =
      l.map PricePoint.price_per_gram := by
  induction l generalizing prev with
  | nil => rfl
  | cons p rest ih => simp [withPercentChangeAux, chartOf, ih]

theorem withPercentChange_map_gram (l : List PricePoint) :
    (withPercentChange l).map ChartPoint.price_per_gram =
      l.map PricePoint.price_per_gram := by
  cases l with
  | nil => rfl
  | cons p rest => simp [withPercentChange, chartOf, withPercentChangeAux_map_gram]

/-- Every point of a reconciled series carries a positive gram price: the
validity filter admits only such points and the later stages preserve them. -/
theorem pipeline_gram_pos (rate : ℚ) (metal : Metal) (items : List RawItem) :
    ∀ c ∈ dataWithPercentChange rate metal items, 0 < c.price_per_gram := by
  intro c hc
  have hmap : c.price_per_gram ∈
      (processedData rate metal items).map PricePoint.price_per_gram := by
    rw [← withPercentChange_map_gram]
    exact List.mem_map_of_mem _ hc
  obtain ⟨p, hp, hpc⟩ := List.mem_map.mp hmap
  have hp' : p ∈ (items.filterMap (toPoint rate metal)).filter keepPoint :=
    (sortByDay_perm _).mem_iff.mp hp
  have hkeep := List.of_mem_filter hp'
  rw [keepPoint, Bool.and_eq_true, Bool.and_eq_true, decide_eq_true_eq,
    decide_eq_true_eq, decide_eq_true_eq] at hkeep
  rw [← hpc]
  exact hkeep.2

/-- A reconciled series always passes the `hasValidData` validation. -/
theorem hasValidData_pipeline (rate : ℚ) (metal : Metal) (items : List RawItem) :
    hasValidData (dataWithPercentChange rate metal items) = true := by
  rw [hasValidData, List.all_eq_true]
  intro c hc
  exact decide_eq_true (pipeline_gram_pos rate metal items c hc)

theorem withPercentChange_length (l : List PricePoint) :
    (withPercentChange l).length = l.length := by
  cases l with
  | nil => rfl
  | cons p rest =>
    have aux : ∀ (prev : PricePoint) (m : List PricePoint),
        (withPercentChangeAux prev m).length = m.length := by
      intro prev m
      induction m generalizing prev with
      | nil => rfl
      | cons q r ih => simp [withPercentChangeAux, ih]
    simp [withPercentChange, aux]

/-- A batch whose first record has a positive parsed price reconciles to a
nonempty series (given a positive rate). -/
theorem dataWithPercentChange_ne_nil {rate p : ℚ} (metal : Metal) (d : ℕ)
    (rest : List RawItem) (hp : 0 < p) (hr : 0 < rate) :
    dataWithPercentChange rate metal (⟨d, some p⟩ :: rest) ≠ [] := by
  intro hnil
  have hlen : (dataWithPercentChange rate metal (⟨d, some p⟩ :: rest)).length =
      ((((⟨d, some p⟩ : RawItem) :: rest).filterMap
          (toPoint rate metal)).filter keepPoint).length := by
    rw [dataWithPercentChange, withPercentChange_length, processedData]
    exact (sortByDay_perm _).length_eq
  rw [hnil] at hlen
  have hhead : (((⟨d, some p⟩ : RawItem) :: rest).filterMap
      (toPoint rate metal)).filter keepPoint =
      ({ day := d, price_usd := p,
         price_per_tola := calculatePricePerTola p rate metal,
         price_per_gram := calculatePricePerGram p rate metal } : PricePoint) ::
        ((rest.filterMap (toPoint rate metal)).filter keepPoint) := by
    rw [List.filterMap_cons]
    simp only [toPoint, Option.map_some']
    rw [List.filter_cons_of_pos (keepPoint_toPoint d metal hp hr)]
  rw [hhead] at hlen
  simp at hlen

/-- C4: a history cache entry written by a successful fetch at time `T` is
served from the cache, with no fetch, for every `force = false` request
strictly before `T + CACHE_DURATION` (30 minutes); a `force = true` request
always fetches fresh, regardless of the store. -/
theorem history_cache_ttl (rate rate' : ℚ) (metal : Metal) (items : List RawItem)
    (lu T nowMs : ℤ)
    (_hwritten : dataWithPercentChange rate metal items ≠ [])
    (hfresh : nowMs - T < CACHE_DURATION) :
    cachePathDecision false
      (some ⟨⟨dataWithPercentChange rate metal items, rate', lu⟩, T⟩) nowMs =
      .servedFromCache ⟨dataWithPercentChange rate metal items, rate', lu⟩ ∧
    ∀ (store : Option StoredSeries) (now2 : ℤ),
      cachePathDecision true store now2 = .fetchFresh := by
  constructor
  · simp [cachePathDecision, getCachedData, if_pos hfresh,
      hasValidData_pipeline rate metal items]
  · intro store now2
    simp [cachePathDecision]

/-- C4 witness at a concrete single-point batch, written at `T = 0` and
requested at 10 ms. -/
theorem history_cache_ttl_witness :
    cachePathDecision false
      (some ⟨⟨dataWithPercentChange 100 .XAU [⟨1, some 2000⟩], 100, 0⟩, 0⟩) 10 =
      .servedFromCache ⟨dataWithPercentChange 100 .XAU [⟨1, some 2000⟩], 100, 0⟩ :=
  (history_cache_ttl 100 100 .XAU [⟨1, some 2000⟩] 0 0 10
    (dataWithPercentChange_ne_nil .XAU 1 [] (by norm_num) (by norm_num))
    (by norm_num [CACHE_DURATION])).1

/-! ## `fetchMetalData` as a state transformer

The React state and the persisted caches touched by one invocation of the main
app module's `fetchMetalData(metal)`.  The network environment of the
invocation is passed explicitly: `freshRate` is the exchange-rate response the
provider would give (`none` models a failed request; it is only consulted on a
rate-cache miss) and `metalResp` is the metal-history response (`none` models a
failed request).  A thrown error is caught by the trailing `catch`, which
records the message and leaves every other field as already mutated. -/

structure AppState where
  goldData : List ChartPoint
  silverData : List ChartPoint
  error : Option String
  lastUpdated : Option ℤ
  usdToNpr : Option ℚ
  exchangeRateNextUpdate : Option ℤ
  rateCache : Option CachedRate
  goldSeriesCache : Option StoredSeries
  silverSeriesCache : Option StoredSeries
deriving Repr

/-- The displayed series of a metal (`goldData` / `silverData`). -/
def seriesOf (st : AppState) : Metal → List ChartPoint
  | .XAU => st.goldData
  | .XAG => st.silverData

/-- The persisted series cache entry of a metal (`priceData_<metal>`). -/
def seriesCacheOf (st : AppState) : Metal → Option StoredSeries
  | .XAU => st.goldSeriesCache
  | .XAG => st.silverSeriesCache

/-- `setData` — `setGoldData` for XAU, `setSilverData` for XAG. -/
def setSeries (st : AppState) (metal : Metal) (d : List ChartPoint) : AppState :=
  match metal with
  | .XAU => { st with goldData := d }
  | .XAG => { st with silverData := d }

/-- `setCachedData(metal, { chartData, usdToNpr, lastUpdated })` at `nowMs`. -/
def writeSeriesCache (st : AppState) (metal : Metal) (payload : SeriesPayload)
    (nowMs : ℤ) : AppState :=
  match metal with
  | .XAU => { st with goldSeriesCache := some ⟨payload, nowMs⟩ }
  | .XAG => { st with silverSeriesCache := some ⟨payload, nowMs⟩ }

/-- The tail of `fetchMetalData` once the exchange rate is resolved: history
fetch, processing, the emptiness check (which throws), then the state and
cache updates in source order (`setUsdToNpr` for gold happens right after the
history response arrives, before processing). -/
def fetchTail (st : AppState) (metal : Metal) (rate : ℚ) (nowMs : ℤ) :
    Option (List RawItem) → AppState
  | none => { st with error := some "Failed to fetch data from API" }
  | some raw =>
    let st1 := if metal = .XAU then { st with usdToNpr := some rate } else st
    let processed := dataWithPercentChange rate metal raw
    if processed = [] then
      { st1 with error := some "No valid price data after processing" }
    else
      let st2 := setSeries st1 metal processed
      let st3 := if metal = .XAU then
          { st2 with lastUpdated := some nowMs, usdToNpr := some rate } else st2
      let st4 := { st3 with error := none }
      writeSeriesCache st4 metal ⟨processed, rate, nowMs⟩ nowMs

/-- One invocation of `fetchMetalData(metal)`: clear the error, resolve the
exchange rate through the cache (storing a fresh provider response on a miss,
and for gold publishing the next-update time), then run the tail. -/
def fetchMetalDataStep (st : AppState) (metal : Metal) (nowSec nowMs : ℤ)
    (freshRate : Option (ℚ × ℤ)) (metalResp : Option (List RawItem)) : AppState :=
  let st0 := { st with error := none }
  match getCachedExchangeRate st.rateCache nowSec with
  | some rt =>
    let st1 := if metal = .XAU then
        { st0 with exchangeRateNextUpdate := some (rt.2 * 1000) } else st0
    fetchTail st1 metal rt.1 nowMs metalResp
  | none =>
    match freshRate with
    | none => { st0 with error := some "Failed to fetch exchange rate" }
    | some (r, t) =>
      let st1 := { st0 with rateCache := some (setCachedExchangeRate r t nowMs) }
      let st2 := if metal = .XAU then
          { st1 with exchangeRateNextUpdate := some (t * 1000) } else st1
      fetchTail st2 metal r nowMs metalResp

/-- The rate (with its `valid_until`) that an invocation at `nowSec` resolves:
the cache hit if there is one, otherwise the fresh provider response. -/
def resolvedRatePair (st : AppState) (nowSec : ℤ)
    (freshRate : Option (ℚ × ℤ)) : Option (ℚ × ℤ) :=
  match getCachedExchangeRate st.rateCache nowSec with
  | some rt => some rt
  | none => freshRate

/-- The cycle for a metal fails when the rate cannot be resolved, the history
request fails, or every raw point is discarded by the validity filter. -/
def cycleFails (st : AppState) (metal : Metal) (nowSec : ℤ)
    (freshRate : Option (ℚ × ℤ)) (metalResp : Option (List RawItem)) : Prop :=
  resolvedRatePair st nowSec freshRate = none ∨ metalResp = none ∨
    ∃ raw r t, metalResp = some raw ∧
      resolvedRatePair st nowSec freshRate = some (r, t) ∧
      dataWithPercentChange r metal raw = []

theorem fetchTail_fail_frame (st : AppState) (metal : Metal) (rate : ℚ)
    (nowMs : ℤ) (metalResp : Option (List RawItem))
    (hfail : metalResp = none ∨ ∃ raw, metalResp = some raw ∧
      dataWithPercentChange rate metal raw = []) :
    (fetchTail st metal rate nowMs metalResp).goldData = st.goldData ∧
    (fetchTail st metal rate nowMs metalResp).silverData = st.silverData ∧
    (fetchTail st metal rate nowMs metalResp).goldSeriesCache = st.goldSeriesCache ∧
    (fetchTail st metal rate nowMs metalResp).silverSeriesCache =
      st.silverSeriesCache ∧
    (fetchTail st metal rate nowMs metalResp).error ≠ none := by
  rcases hfail with rfl | ⟨raw, rfl, hempty⟩
  · simp [fetchTail]
  · cases metal <;> simp [fetchTail, hempty]

theorem step_fail_frame (st : AppState) (metal : Metal) (nowSec nowMs : ℤ)
    (freshRate : Option (ℚ × ℤ)) (metalResp : Option (List RawItem))
    (hfail : cycleFails st metal nowSec freshRate metalResp) :
    (fetchMetalDataStep st metal nowSec nowMs freshRate metalResp).goldData =
      st.goldData ∧
    (fetchMetalDataStep st metal nowSec nowMs freshRate metalResp).silverData =
      st.silverData ∧
    (fetchMetalDataStep st metal nowSec nowMs freshRate metalResp).goldSeriesCache =
      st.goldSeriesCache ∧
    (fetchMetalDataStep st metal nowSec nowMs freshRate metalResp).silverSeriesCache =
      st.silverSeriesCache ∧
    (fetchMetalDataStep st metal nowSec nowMs freshRate metalResp).error ≠ none := by
  cases hc : getCachedExchangeRate st.rateCache nowSec with
  | some rt =>
    have hres : resolvedRatePair st nowSec freshRate = some rt := by
      simp [resolvedRatePair, hc]
    rcases hfail with h1 | h1 | ⟨raw, r, t, hresp, hres2, hempty⟩
    · rw [hres] at h1; simp at h1
    · subst h1
      cases metal <;> simp [fetchMetalDataStep, hc, fetchTail]
    · subst hresp
      rw [hres] at hres2
      have hrt : rt = (r, t) := Option.some.inj hres2
      subst hrt
      cases metal <;> simp [fetchMetalDataStep, hc, fetchTail, hempty]
  | none =>
    cases hf : freshRate with
    | none =>
      cases metal <;> simp [fetchMetalDataStep, hc, hf]
    | some rt =>
      have hres : resolvedRatePair st nowSec freshRate = some rt := by
        simp [resolvedRatePair, hc, hf]
      rcases hfail with h1 | h1 | ⟨raw, r, t, hresp, hres2, hempty⟩
      · rw [hres] at h1; simp at h1
      · subst h1
        obtain ⟨r, t⟩ := rt
        cases metal <;> simp [fetchMetalDataStep, hc, hf, fetchTail]
      · subst hresp
        rw [hres] at hres2
        have hrt : rt = (r, t) := Option.some.inj hres2
        subst hrt
        cases metal <;> simp [fetchMetalDataStep, hc, hf, fetchTail, hempty]

/-- C5: when a metal's cycle fails — rate unresolvable, history request failed,
or every point filtered out — the displayed series of both metals and both
persisted series caches are left exactly as they were, and an error message is
surfaced; the failed cycle never blanks or overwrites last-known-good data. -/
theorem failed_cycle_preserves_series (st : AppState) (metal : Metal)
    (nowSec nowMs : ℤ) (freshRate : Option (ℚ × ℤ))
    (metalResp : Option (List RawItem))
    (hfail : cycleFails st metal nowSec freshRate metalResp) :
    (fetchMetalDataStep st metal nowSec nowMs freshRate metalResp).goldData =
      st.goldData ∧
    (fetchMetalDataStep st metal nowSec nowMs freshRate metalResp).silverData =
      st.silverData ∧
    (fetchMetalDataStep st metal nowSec nowMs freshRate metalResp).goldSeriesCache =
      st.goldSeriesCache ∧
    (fetchMetalDataStep st metal nowSec nowMs freshRate metalResp).silverSeriesCache =
      st.silverSeriesCache ∧
    (fetchMetalDataStep st metal nowSec nowMs freshRate metalResp).error ≠ none :=
  step_fail_frame st metal nowSec nowMs freshRate metalResp hfail

/-- C5 witness: a failed history request for silver on a state holding
previous data leaves that data and the caches in place and surfaces an error. -/
theorem failed_cycle_preserves_series_witness :
    (fetchMetalDataStep
        ⟨[⟨1, 2000, 5, 4, 0⟩], [⟨1, 25, 3, 2, 0⟩], none, none, none, none,
          some ⟨100, 100, 0⟩, none, none⟩ .XAG 50 50000 none none).silverData =
      [⟨1, 25, 3, 2, 0⟩] ∧
    (fetchMetalDataStep
        ⟨[⟨1, 2000, 5, 4, 0⟩], [⟨1, 25, 3, 2, 0⟩], none, none, none, none,
          some ⟨100, 100, 0⟩, none, none⟩ .XAG 50 50000 none none).error ≠ none := by
  have h := failed_cycle_preserves_series
    ⟨[⟨1, 2000, 5, 4, 0⟩], [⟨1, 25, 3, 2, 0⟩], none, none, none, none,
      some ⟨100, 100, 0⟩, none, none⟩ .XAG 50 50000 none none
    (Or.inr (Or.inl rfl))
  exact ⟨h.2.1, h.2.2.2.2⟩

/-- C7: a batch in which every raw point is discarded by the validity filter is
rejected: the cycle surfaces an error, and neither the displayed series nor the
persisted cache of the metal is replaced — an empty series is never published
or cached as a successful result. -/
theorem empty_series_rejected (st : AppState) (metal : Metal) (nowSec nowMs : ℤ)
    (freshRate : Option (ℚ × ℤ)) (raw : List RawItem) (r : ℚ) (t : ℤ)
    (hres : resolvedRatePair st nowSec freshRate = some (r, t))
    (hempty : dataWithPercentChange r metal raw = []) :
    seriesOf (fetchMetalDataStep st metal nowSec nowMs freshRate (some raw))
        metal = seriesOf st metal ∧
    seriesCacheOf (fetchMetalDataStep st metal nowSec nowMs freshRate (some raw))
        metal = seriesCacheOf st metal ∧
    (fetchMetalDataStep st metal nowSec nowMs freshRate (some raw)).error ≠
      none := by
  have h := step_fail_frame st metal nowSec nowMs freshRate (some raw)
    (Or.inr (Or.inr ⟨raw, r, t, rfl, hres, hempty⟩))
  cases metal
  · exact ⟨h.1, h.2.2.1, h.2.2.2.2⟩
  · exact ⟨h.2.1, h.2.2.2.1, h.2.2.2.2⟩

/-- C7 witness: a single-point batch whose price fails to parse (`NaN`). -/
theorem empty_series_rejected_witness :
    seriesOf (fetchMetalDataStep
        ⟨[], [⟨1, 25, 3, 2, 0⟩], none, none, none, none, some ⟨100, 100, 0⟩,
          none, none⟩ .XAG 50 50000 none (some [⟨7, none⟩])) .XAG =
      [⟨1, 25, 3, 2, 0⟩] := by
  have h := empty_series_rejected
    ⟨[], [⟨1, 25, 3, 2, 0⟩], none, none, none, none, some ⟨100, 100, 0⟩,
      none, none⟩ .XAG 50 50000 none [⟨7, none⟩] 100 100
    (by simp [resolvedRatePair, getCachedExchangeRate])
    (by simp [dataWithPercentChange, processedData, toPoint, sortByDay,
      withPercentChange])
  exact h.1

theorem fetchTail_silver_frame (st : AppState) (rate : ℚ) (nowMs : ℤ)
    (resp : Option (List RawItem)) :
    (fetchTail st .XAG rate nowMs resp).usdToNpr = st.usdToNpr ∧
    (fetchTail st .XAG rate nowMs resp).exchangeRateNextUpdate =
      st.exchangeRateNextUpdate ∧
    (fetchTail st .XAG rate nowMs resp).lastUpdated = st.lastUpdated := by
  cases resp with
  | none => simp [fetchTail]
  | some raw =>
    simp only [fetchTail]
    split
    · simp
    · simp [setSeries, writeSeriesCache]

/-- C10: a silver (XAG) invocation of `fetchMetalData` never modifies the
published exchange rate, the published exchange-rate next-update time, or the
last-updated timestamp, whatever the cache state and whether the fetch
succeeds or fails; those fields are only written on gold (XAU) cycles. -/
theorem silver_fetch_frame (st : AppState) (nowSec nowMs : ℤ)
    (freshRate : Option (ℚ × ℤ)) (metalResp : Option (List RawItem)) :
    (fetchMetalDataStep st .XAG nowSec nowMs freshRate metalResp).usdToNpr =
      st.usdToNpr ∧
    (fetchMetalDataStep st .XAG nowSec nowMs freshRate
        metalResp).exchangeRateNextUpdate = st.exchangeRateNextUpdate ∧
    (fetchMetalDataStep st .XAG nowSec nowMs freshRate metalResp).lastUpdated =
      st.lastUpdated := by
  cases hc : getCachedExchangeRate st.rateCache nowSec with
  | some rt =>
    have h := fetchTail_silver_frame { st with error := none } rt.1 nowMs metalResp
    simpa [fetchMetalDataStep, hc] using h
  | none =>
    cases hf : freshRate with
    | none => simp [fetchMetalDataStep, hc]
    | some rt =>
      obtain ⟨r, t⟩ := rt
      have h := fetchTail_silver_frame
        { st with error := none, rateCache := some (setCachedExchangeRate r t nowMs) }
        r nowMs metalResp
      simpa [fetchMetalDataStep, hc] using h

/-! ## Rate consistency across a refresh cycle -/

theorem getCachedExchangeRate_inv {store : Option CachedRate} {nowSec : ℤ}
    {r : ℚ} {t : ℤ} (h : getCachedExchangeRate store nowSec = some (r, t)) :
    ∃ ts, store = some ⟨r, t, ts⟩ ∧ nowSec < t := by
  cases store with
  | none => simp [getCachedExchangeRate] at h
  | some c =>
    by_cases hlt : nowSec < c.timeNextUpdateUnix
    · simp only [getCachedExchangeRate, if_pos hlt] at h
      obtain ⟨h1, h2⟩ := Prod.mk.injEq .. ▸ Option.some.inj h
      exact ⟨c.timestamp, by rw [← h1, ← h2], h2 ▸ hlt⟩
    · simp [getCachedExchangeRate, if_neg hlt] at h

theorem fetchTail_rateCache (st : AppState) (metal : Metal) (rate : ℚ)
    (nowMs : ℤ) (resp : Option (List RawItem)) :
    (fetchTail st metal rate nowMs resp).rateCache = st.rateCache := by
  cases resp with
  | none => simp [fetchTail]
  | some raw =>
    simp only [fetchTail]
    split
    · cases metal <;> simp
    · cases metal <;> simp [setSeries, writeSeriesCache]

/-- After an invocation that resolved rate `(r, t)`, the rate cache holds
exactly that rate and `valid_until` (with some write timestamp). -/
theorem step_preserves_resolved_rate (st : AppState) (metal : Metal)
    (nowSec nowMs : ℤ) (freshRate : Option (ℚ × ℤ))
    (resp : Option (List RawItem)) (r : ℚ) (t : ℤ)
    (hres : resolvedRatePair st nowSec freshRate = some (r, t)) :
    ∃ ts, (fetchMetalDataStep st metal nowSec nowMs freshRate resp).rateCache =
      some ⟨r, t, ts⟩ := by
  cases hc : getCachedExchangeRate st.rateCache nowSec with
  | some rt =>
    have hrt : rt = (r, t) := by
      have := hres
      rw [resolvedRatePair, hc] at this
      exact Option.some.inj this
    subst hrt
    obtain ⟨ts, hstore, _⟩ := getCachedExchangeRate_inv hc
    refine ⟨ts, ?_⟩
    have hpres : (fetchMetalDataStep st metal nowSec nowMs freshRate
        resp).rateCache = st.rateCache := by
      cases metal <;>
        simp [fetchMetalDataStep, hc, fetchTail_rateCache]
    rw [hpres, hstore]
  | none =>
    have hf : freshRate = some (r, t) := by
      have := hres
      rwa [resolvedRatePair, hc] at this
    subst hf
    refine ⟨nowMs, ?_⟩
    cases metal <;>
      simp [fetchMetalDataStep, hc, fetchTail_rateCache, setCachedExchangeRate]

/-- A successful invocation caches the series derived with exactly the
resolved rate: the stored payload records that rate. -/
theorem step_writes_resolved (st : AppState) (metal : Metal) (nowSec nowMs : ℤ)
    (freshRate : Option (ℚ × ℤ)) (raw : List RawItem) (r : ℚ) (t : ℤ)
    (hres : resolvedRatePair st nowSec freshRate = some (r, t))
    (hne : dataWithPercentChange r metal raw ≠ []) :
    seriesCacheOf (fetchMetalDataStep st metal nowSec nowMs freshRate (some raw))
        metal =
      some ⟨⟨dataWithPercentChange r metal raw, r, nowMs⟩, nowMs⟩ := by
  cases hc : getCachedExchangeRate st.rateCache nowSec with
  | some rt =>
    have hrt : rt = (r, t) := by
      have := hres
      rw [resolvedRatePair, hc] at this
      exact Option.some.inj this
    subst hrt
    cases metal <;>
      simp [fetchMetalDataStep, hc, fetchTail, hne, setSeries, writeSeriesCache,
        seriesCacheOf]
  | none =>
    have hf : freshRate = some (r, t) := by
      have := hres
      rwa [resolvedRatePair, hc] at this
    subst hf
    cases metal <;>
      simp [fetchMetalDataStep, hc, fetchTail, hne, setSeries, writeSeriesCache,
        seriesCacheOf]

/-- C9 amended: within one refresh cycle (gold step then silver step), the
silver derivation resolves and uses the very rate the gold step resolved —
provided the silver step's lookup happens strictly before that rate's
`valid_until`.  (Past `valid_until`, the silver step re-fetches and the two
metals may use different rates, as the counterexample shows.) -/
theorem one_rate_per_cycle_amended (st : AppState) (nowG nowMsG nowS nowMsS : ℤ)
    (freshG freshS : Option (ℚ × ℤ)) (respG : Option (List RawItem))
    (rawS : List RawItem) (r : ℚ) (t : ℤ)
    (hres : resolvedRatePair st nowG freshG = some (r, t))
    (hS : nowS < t)
    (hneS : dataWithPercentChange r .XAG rawS ≠ []) :
    resolvedRatePair (fetchMetalDataStep st .XAU nowG nowMsG freshG respG)
        nowS freshS = some (r, t) ∧
    seriesCacheOf (fetchMetalDataStep
        (fetchMetalDataStep st .XAU nowG nowMsG freshG respG) .XAG nowS nowMsS
        freshS (some rawS)) .XAG =
      some ⟨⟨dataWithPercentChange r .XAG rawS, r, nowMsS⟩, nowMsS⟩ := by
  obtain ⟨ts, hcache⟩ :=
    step_preserves_resolved_rate st .XAU nowG nowMsG freshG respG r t hres
  have hres2 : resolvedRatePair (fetchMetalDataStep st .XAU nowG nowMsG freshG
      respG) nowS freshS = some (r, t) := by
    simp [resolvedRatePair, getCachedExchangeRate, hcache, if_pos hS]
  exact ⟨hres2, step_writes_resolved _ .XAG nowS nowMsS freshS rawS r t hres2 hneS⟩

/-- C9 witness: concrete cycle whose cached rate stays valid through both
steps — silver records the same rate 100 that gold resolved. -/
theorem one_rate_per_cycle_amended_witness :
    seriesCacheOf (fetchMetalDataStep
        (fetchMetalDataStep
          ⟨[], [], none, none, none, none, some ⟨100, 400, 0⟩, none, none⟩
          .XAU 99 99000 none (some [⟨1, some 2000⟩])) .XAG 101 101000 none
        (some [⟨1, some 2000⟩])) .XAG =
      some ⟨⟨dataWithPercentChange 100 .XAG [⟨1, some 2000⟩], 100, 101000⟩,
        101000⟩ :=
  (one_rate_per_cycle_amended
    ⟨[], [], none, none, none, none, some ⟨100, 400, 0⟩, none, none⟩
    99 99000 101 101000 none none (some [⟨1, some 2000⟩]) [⟨1, some 2000⟩]
    100 400
    (by simp [resolvedRatePair, getCachedExchangeRate])
    (by norm_num)
    (dataWithPercentChange_ne_nil .XAG 1 [] (by norm_num) (by norm_num))).2

/-- C9 counterexample: the code does not enforce one resolved rate per cycle.
With a cached rate `100` valid until second `100`, a gold step at second `99`
derives with rate `100`, while the silver step of the same cycle at second
`101` finds the cache expired, fetches a fresh rate `200`, and derives with it
— the two metals' cached payloads record two different rates. -/
theorem one_rate_per_cycle_counterexample :
    (seriesCacheOf (fetchMetalDataStep
        ⟨[], [], none, none, none, none, some ⟨100, 100, 0⟩, none, none⟩
        .XAU 99 99000 none (some [⟨1, some 2000⟩])) .XAU).map
      (fun s => s.data.usdToNpr) = some 100 ∧
    (seriesCacheOf (fetchMetalDataStep
        (fetchMetalDataStep
          ⟨[], [], none, none, none, none, some ⟨100, 100, 0⟩, none, none⟩
          .XAU 99 99000 none (some [⟨1, some 2000⟩])) .XAG 101 101000
        (some (200, 300)) (some [⟨1, some 2000⟩])) .XAG).map
      (fun s => s.data.usdToNpr) = some 200 ∧
    (100 : ℚ) ≠ 200 := by
  have hres1 : resolvedRatePair
      ⟨[], [], none, none, none, none, some ⟨100, 100, 0⟩, none, none⟩
      99 none = some (100, 100) := by
    simp [resolvedRatePair, getCachedExchangeRate]
  have hne1 : dataWithPercentChange 100 .XAU [⟨1, some 2000⟩] ≠ [] :=
    dataWithPercentChange_ne_nil .XAU 1 [] (by norm_num) (by norm_num)
  have h1 := step_writes_resolved
    ⟨[], [], none, none, none, none, some ⟨100, 100, 0⟩, none, none⟩
    .XAU 99 99000 none [⟨1, some 2000⟩] 100 100 hres1 hne1
  obtain ⟨ts, hcache⟩ := step_preserves_resolved_rate
    ⟨[], [], none, none, none, none, some ⟨100, 100, 0⟩, none, none⟩
    .XAU 99 99000 none (some [⟨1, some 2000⟩]) 100 100 hres1
  have hres2 : resolvedRatePair (fetchMetalDataStep
      ⟨[], [], none, none, none, none, some ⟨100, 100, 0⟩, none, none⟩
      .XAU 99 99000 none (some [⟨1, some 2000⟩])) 101 (some (200, 300)) =
      some (200, 300) := by
    simp [resolvedRatePair, getCachedExchangeRate, hcache]
  have hne2 : dataWithPercentChange 200 .XAG [⟨1, some 2000⟩] ≠ [] :=
    dataWithPercentChange_ne_nil .XAG 1 [] (by norm_num) (by norm_num)
  have h2 := step_writes_resolved _ .XAG 101 101000 (some (200, 300))
    [⟨1, some 2000⟩] 200 300 hres2 hne2
  refine ⟨?_, ?_, by norm_num⟩
  · rw [h1]; rfl
  · rw [h2]; rfl

/-! ## Relay credential rotation (`api/gold-proxy.js`) -/

/-- The observable outcome of trying one API key against the upstream:
an OK (2xx) response with a payload, a non-2xx HTTP status, or a thrown
fetch error. -/
inductive KeyResp where
  | ok (body : String)
  | status (code : ℕ)
  | netErr (msg : String)
deriving DecidableEq, Repr

/-- The `lastError` record kept across key attempts. -/
structure LastErr where
  status : ℕ
  message : String
deriving DecidableEq, Repr

/-- What the relay sends back: the upstream payload with HTTP 200, an
immediate upstream error with the upstream's status, or the
all-keys-exhausted payload carrying `keysAttempted`. -/
inductive ProxyOut where
  | success (body : String)
  | upstreamError (code : ℕ)
  | exhausted (status : ℕ) (keysAttempted : ℕ)
deriving DecidableEq, Repr

/-- The key loop of the relay handler: for each key in order, a 2xx response
returns immediately; a 429 or 401 records `lastError` and continues with the
next key; any other status returns immediately; a thrown fetch error records a
500 `lastError` and continues.  After the loop the relay answers with
`lastError?.status || 429` and `keysAttempted: apiKeys.length`. -/
def tryKeys (n : ℕ) : List KeyResp → Option LastErr → ProxyOut
  | [], lastError =>
    .exhausted (match lastError with | some e => e.status | none => 429) n
  | resp :: rest, _lastError =>
    match resp with
    | .ok body => .success body
    | .status code =>
      if code = 429 ∨ code = 401 then
        tryKeys n rest (some ⟨code, "rate limited or unauthorized"⟩)
      else .upstreamError code
    | .netErr msg => tryKeys n rest (some ⟨500, msg⟩)

/-- The relay handler over the per-key upstream responses of one request. -/
def goldProxyHandler (resps : List KeyResp) : ProxyOut :=
  tryKeys resps.length resps none

theorem tryKeys_exhausted (n : ℕ) (resps : List KeyResp) (le : Option LastErr)
    (hall : ∀ resp ∈ resps, ∃ code, resp = .status code ∧
      (code = 401 ∨ code = 429)) :
    ∃ status, tryKeys n resps le = .exhausted status n := by
  induction resps generalizing le with
  | nil =>
    cases le with
    | none => exact ⟨429, rfl⟩
    | some e => exact ⟨e.status, rfl⟩
  | cons resp rest ih =>
    obtain ⟨code, rfl, hcode⟩ := hall resp (List.mem_cons_self _ _)
    have hcond : code = 429 ∨ code = 401 := hcode.symm
    simp only [tryKeys, if_pos hcond]
    exact ih _ fun r hr => hall r (List.mem_cons_of_mem _ hr)

/-- C6: a key answered 401 or 429 causes the same request to be retried with
the next key in order; any other non-2xx status is returned immediately
without trying further keys; and when every key fails with 401/429 the relay
answers with an error payload whose `keysAttempted` equals the number of
configured keys. -/
theorem relay_credential_rotation :
    (∀ (n : ℕ) (rest : List KeyResp) (le : Option LastErr) (code : ℕ),
      code = 401 ∨ code = 429 →
      tryKeys n (.status code :: rest) le =
        tryKeys n rest (some ⟨code, "rate limited or unauthorized"⟩)) ∧
    (∀ (n : ℕ) (rest : List KeyResp) (le : Option LastErr) (code : ℕ),
      code ≠ 401 → code ≠ 429 →
      tryKeys n (.status code :: rest) le = .upstreamError code) ∧
    (∀ resps : List KeyResp,
      (∀ resp ∈ resps, ∃ code, resp = .status code ∧
        (code = 401 ∨ code = 429)) →
      ∃ status, goldProxyHandler resps = .exhausted status resps.length) := by
  refine ⟨fun n rest le code h => ?_, fun n rest le code h1 h2 => ?_,
    fun resps hall => ?_⟩
  · simp only [tryKeys, if_pos h.symm]
  · rw [tryKeys.eq_def]
    simp only []
    rw [if_neg]
    rintro (rfl | rfl)
    · exact h2 rfl
    · exact h1 rfl
  · exact tryKeys_exhausted resps.length resps none hall

/-- C6 witness: two keys, both rate limited or unauthorized — the relay
reports an exhausted error counting both attempts. -/
theorem relay_credential_rotation_witness :
    ∃ status, goldProxyHandler [.status 429, .status 401] =
      .exhausted status 2 :=
  relay_credential_rotation.2.2 [.status 429, .status 401] (by
    intro resp h
    rcases List.mem_cons.mp h with rfl | h
    · exact ⟨429, rfl, Or.inr rfl⟩
    · rcases List.mem_cons.mp h with rfl | h
      · exact ⟨401, rfl, Or.inl rfl⟩
      · exact absurd h (List.not_mem_nil _))

/-! ## Margin invariant -/

/-- C8 counterexample: at spot `15.55175` USD/oz and rate `1` (both positive),
the unmargined NPR/gram value is exactly `0.5`; the gold output rounds down to
`429`, which exceeds the unmargined value by only `428.5 < 5000/11.664`.  The
claimed margin lower bound fails for sufficiently small positive prices. -/
theorem margin_invariant_counterexample :
    (0 : ℚ) < 1555175/100000 ∧ (0 : ℚ) < 1 ∧
    ¬ ((5000 / GM_TO_TOLA : ℚ) ≤
        (calculatePricePerGram (1555175/100000) 1 .XAU : ℚ) -
          (1555175/100000) / OZ_TO_GM * 1) := by
  refine ⟨by norm_num, by norm_num, ?_⟩
  have hval : calculatePricePerGram (1555175/100000) 1 .XAU = 429 := by
    show jround ((1555175/100000) / OZ_TO_GM * 1 * (110/100) + 5000 / GM_TO_TOLA) =
      429
    rw [jround]
    norm_num [OZ_TO_GM, GM_TO_TOLA]
  rw [hval]
  norm_num [OZ_TO_GM, GM_TO_TOLA]

/-- C8 amended: the derived NPR/gram output exceeds the unmargined
`npr_per_gram` value by at least the flat surcharge term, provided the
unmargined value is large enough for the percentage margin to absorb the
half-unit rounding loss: at least `5` NPR/gram for gold (10% margin) and at
least `25/8` NPR/gram for silver (16% margin). -/
theorem margin_invariant_amended (s r : ℚ) (_hs : 0 < s) (_hr : 0 < r) :
    (5 ≤ s / OZ_TO_GM * r →
      (5000 / GM_TO_TOLA : ℚ) ≤
        (calculatePricePerGram s r .XAU : ℚ) - s / OZ_TO_GM * r) ∧
    (25/8 ≤ s / OZ_TO_GM * r →
      (50 / GM_TO_TOLA : ℚ) ≤
        (calculatePricePerGram s r .XAG : ℚ) - s / OZ_TO_GM * r) := by
  constructor
  · intro hg
    show (5000 / GM_TO_TOLA : ℚ) ≤
      (jround (s / OZ_TO_GM * r * (110/100) + 5000 / GM_TO_TOLA) : ℚ) -
        s / OZ_TO_GM * r
    rw [jround]
    have h1 := Int.lt_floor_add_one
      (s / OZ_TO_GM * r * (110/100) + 5000 / GM_TO_TOLA + 1/2)
    linarith
  · intro hg
    show (50 / GM_TO_TOLA : ℚ) ≤
      (jround (s / OZ_TO_GM * r * (116/100) + 50 / GM_TO_TOLA) : ℚ) -
        s / OZ_TO_GM * r
    rw [jround]
    have h1 := Int.lt_floor_add_one
      (s / OZ_TO_GM * r * (116/100) + 50 / GM_TO_TOLA + 1/2)
    linarith

/-- C8 witness: at spot `311.035` USD/oz and rate `1`, the unmargined value is
exactly `10 ≥ 5`, and the gold output clears the surcharge bound. -/
theorem margin_invariant_amended_witness :
    (5000 / GM_TO_TOLA : ℚ) ≤
      (calculatePricePerGram (311035/1000) 1 .XAU : ℚ) -
        (311035/1000) / OZ_TO_GM * 1 :=
  (margin_invariant_amended (311035/1000) 1 (by norm_num) (by norm_num)).1
    (by norm_num [OZ_TO_GM])

end GoldSilverNpr
